import Mathlib

/-!
Verification of the nanosearch core against its specification.

Shallow embedding of the indexer (change detection, incremental
application, metadata persistence), the symbol-extractor dispatch,
the context extractor and the budget-aware formatters, translated
from the Rust sources under `src/`.  External collaborators (the
tantivy engine, tree-sitter parsers, the file system, git) are
abstracted as explicit inputs; everything else follows the source
line by line.
-/

namespace Nanosearch

/-- A changeset: the three path lists of `incremental.rs` (struct `ChangeSet`). -/
structure ChangeSet where
  added : List String
  modified : List String
  deleted : List String
deriving DecidableEq, Repr

/-- Embeds `merge_changesets` (incremental.rs lines 350-374): `existing` is the
set of all paths of `base`, computed once; each list of `other` is appended
keeping only paths not in `existing`. -/
def merge_changesets (base other : ChangeSet) : ChangeSet :=
  let existing := base.added ++ base.modified ++ base.deleted
  { added := base.added ++ other.added.filter (fun p => !(existing.contains p))
  , modified := base.modified ++ other.modified.filter (fun p => !(existing.contains p))
  , deleted := base.deleted ++ other.deleted.filter (fun p => !(existing.contains p)) }

/-- Embeds `detect_changes_mtime` (incremental.rs lines 427-473).  The walk
result and the indexed-path set are explicit inputs; `mtime_newer p` abstracts
"the file's metadata is readable and its mtime is strictly newer than the
parsed `indexed_at`" (the nested `if let` chain of the source).  The single
pass over `current` pushing into `added` or `modified` is rendered as the
corresponding two filters. -/
def detect_changes_mtime (current indexed : List String) (mtime_newer : String → Bool) :
    ChangeSet :=
  { added := current.filter (fun p => !(indexed.contains p))
  , modified := current.filter (fun p => indexed.contains p && mtime_newer p)
  , deleted := indexed.filter (fun p => !(current.contains p)) }

/-- One iteration of the untracked-file loop of `detect_changes_git_uncommitted`
(incremental.rs lines 252-274): skip empty paths and paths already in `added`;
a path already in the index becomes `modified` only when `indexed_at` parsed
and the file's mtime is available and strictly newer; otherwise it is skipped;
a path not in the index is appended to `added`. -/
def classify_untracked_step (indexed_paths : List String) (indexed_time : Option Nat)
    (mtime : String → Option Nat) (cs : ChangeSet) (path : String) : ChangeSet :=
  if path = "" ∨ cs.added.contains path then cs
  else if indexed_paths.contains path then
    match indexed_time with
    | some t =>
      match mtime path with
      | some m => if t < m then { cs with modified := cs.modified ++ [path] } else cs
      | none => cs
    | none => cs
  else { cs with added := cs.added ++ [path] }

/-- The untracked-file loop of `detect_changes_git_uncommitted` (incremental.rs
lines 249-275), folded over the trimmed `git ls-files --others` output lines,
starting from the changeset parsed out of `git diff --name-status HEAD`. -/
def classify_untracked (untracked indexed_paths : List String) (indexed_time : Option Nat)
    (mtime : String → Option Nat) (cs : ChangeSet) : ChangeSet :=
  untracked.foldl (classify_untracked_step indexed_paths indexed_time mtime) cs

/-- File-system side effects relevant to metadata persistence. -/
inductive FsOp where
  | write (path : String)
  | rename (src dst : String)
deriving DecidableEq, Repr

/-- The operations `build_index` performs on `.ns/meta.json` (writer.rs lines
109-120): the metadata record is serialized and written with a single direct
`fs::write` — no temporary file and no rename. -/
def build_index_meta_ops : List FsOp := [FsOp.write ".ns/meta.json"]

/-- The operations `run_incremental` performs on `.ns/meta.json`
(incremental.rs lines 109-121): again one direct `fs::write`. -/
def run_incremental_meta_ops : List FsOp := [FsOp.write ".ns/meta.json"]

/-- Whether an FsOp is a rename. -/
def FsOp.isRename : FsOp → Bool
  | .rename _ _ => true
  | _ => false

/-- Number of writes an operation trace makes to `.ns/meta.json`. -/
def metaWriteCount (ops : List FsOp) : Nat :=
  (ops.filter (fun o => o = FsOp.write ".ns/meta.json")).length

/-- The fields of `struct SearchResult` in query.rs (lines 16-26): it carries
exactly the path, the BM25 score, the language and the raw symbol list
decoded in `execute_search` (lines 140-174). -/
def searchResultFields : List String := ["path", "score", "lang", "symbols_raw"]

/-- The per-result fields the formatter reads off `DisplayResult.result`:
format.rs `format_text` (lines 23-34) and `format_json` (lines 147-159)
additionally require the per-clause scores and the matched-field list. -/
def formatterRequiredFields : List String :=
  ["path", "score", "lang", "symbols_raw", "score_content", "score_symbols", "matched_fields"]

/-- Embeds `detect_language` (language.rs lines 5-14) over the already
extracted extension: the `match` on `path.extension()?.to_str()?`. -/
def detect_language : Option String → Option String
  | none => none
  | some e =>
    if e = "rs" then some "rust"
    else if e = "py" ∨ e = "pyi" then some "python"
    else if e = "go" then some "go"
    else if e = "js" ∨ e = "jsx" ∨ e = "mjs" ∨ e = "cjs" then some "javascript"
    else if e = "ts" ∨ e = "tsx" ∨ e = "mts" ∨ e = "cts" then some "typescript"
    else none

/-- Models `std::path::Path::extension` for the forward-slash relative paths
this repository stores: the part of the final path component after its last
dot; `none` when the component has no dot or only a leading one (hidden files
such as `.gitignore`). -/
def extOf (p : String) : Option String :=
  let comp := (p.data.splitOnP (fun c => c == '/')).getLastD []
  match comp.splitOnP (fun c => c == '.') with
  | [] => none
  | [_] => none
  | [[], _] => none
  | parts => some (String.mk (parts.getLastD []))

/-- The language tags the `match` in `extract_symbols` (symbols.rs lines 8-16)
dispatches on; every other tag falls to the `_ => return Vec::new()` arm. -/
def extract_symbols_langs : List String :=
  ["rust", "typescript", "javascript", "python", "go", "elixir"]

/-- The order-preserving deduplication of `extract_symbols` (symbols.rs lines
18-23): a `seen` set, keeping each name's first occurrence.  `seen` is carried
as an explicit accumulator. -/
def dedupFirstAux : List String → List String → List String
  | _, [] => []
  | seen, s :: rest =>
    if seen.contains s then dedupFirstAux seen rest
    else s :: dedupFirstAux (s :: seen) rest

/-- Deduplicate a symbol list, first occurrence wins (symbols.rs lines 18-23). -/
def dedupFirst (l : List String) : List String := dedupFirstAux [] l

/-- Embeds `extract_symbols` (symbols.rs lines 7-24).  The per-language
tree-sitter walkers are external library calls; `langRaw lang source` abstracts
the raw name list a walker produces in source order (empty on parse failure).
A supported tag dispatches and deduplicates; any other tag returns the empty
list before deduplication. -/
def extract_symbols (langRaw : String → String → List String)
    (lang source : String) : List String :=
  if extract_symbols_langs.contains lang then dedupFirst (langRaw lang source)
  else []

/-- A tantivy document as built by this repository: the five schema fields
(schema.rs, §3 of the spec), with `symbols` space-joined, `symbols_raw`
pipe-joined and `lang` present only when detected. -/
structure Document where
  content : String
  symbols : String
  symbols_raw : String
  path : String
  lang : Option String
deriving DecidableEq, Repr

/-- Embeds `build_document` (incremental.rs lines 478-506).  `fs` abstracts
`fs::read_to_string` (`none` = I/O error); `langRaw` abstracts the tree-sitter
walkers as in `extract_symbols`.  Returns `none` exactly when the read fails. -/
def build_document (langRaw : String → String → List String)
    (fs : String → Option String) (rel_path : String) : Option Document :=
  match fs rel_path with
  | none => none
  | some content =>
    let lang := detect_language (extOf rel_path)
    let names :=
      match lang with
      | some l => extract_symbols langRaw l content
      | none => []
    some { content := content
         , symbols := String.intercalate " " names
         , symbols_raw := String.intercalate "|" names
         , path := rel_path
         , lang := lang }

/-- The index as an association of path terms to stored documents; tantivy's
`delete_term` on the `path` field removes every document whose path equals the
term. -/
def delete_term (idx : List (String × Document)) (p : String) : List (String × Document) :=
  idx.filter (fun e => e.1 ≠ p)

/-- One step of the modified-file loop of `run_incremental` (incremental.rs
lines 79-84): delete by path term, then add the freshly built document when
the build succeeds; a failed build is swallowed and the loop continues. -/
def apply_modified_step (langRaw : String → String → List String)
    (fs : String → Option String) (acc : List (String × Document)) (p : String) :
    List (String × Document) :=
  let acc2 := delete_term acc p
  match build_document langRaw fs p with
  | some d => acc2 ++ [(p, d)]
  | none => acc2

/-- One step of the added-file loop of `run_incremental` (incremental.rs lines
87-91): add the freshly built document when the build succeeds. -/
def apply_added_step (langRaw : String → String → List String)
    (fs : String → Option String) (acc : List (String × Document)) (p : String) :
    List (String × Document) :=
  match build_document langRaw fs p with
  | some d => acc ++ [(p, d)]
  | none => acc

/-- The application phase of `run_incremental` (incremental.rs lines 73-93):
deletes, then modified (delete + re-add), then added, then commit. -/
def apply_changes (langRaw : String → String → List String)
    (fs : String → Option String) (changes : ChangeSet)
    (idx : List (String × Document)) : List (String × Document) :=
  let idx1 := changes.deleted.foldl delete_term idx
  let idx2 := changes.modified.foldl (apply_modified_step langRaw fs) idx1
  changes.added.foldl (apply_added_step langRaw fs) idx2

/-- The stats `run_incremental` returns on a committed update (incremental.rs
lines 123-128): the raw lengths of the three changeset lists, regardless of
any per-file build failures during application. -/
def run_incremental_stats (changes : ChangeSet) : Nat × Nat × Nat :=
  (changes.added.length, changes.modified.length, changes.deleted.length)

/-- `usize::MAX` of the 64-bit target, the "unlimited" cap of context.rs. -/
def USIZE_MAX : Nat := 2 ^ 64 - 1

/-- Rust `str::contains` restricted to the code points the repository's tests
exercise: `pat` occurs contiguously in `hay`. -/
def charsStartWith : List Char → List Char → Bool
  | _, [] => true
  | [], _ :: _ => false
  | a :: as_, b :: bs => a == b && charsStartWith as_ bs

/-- Substring containment on character lists (Rust `str::contains`). -/
def charsContain : List Char → List Char → Bool
  | hay, pat =>
    if charsStartWith hay pat then true
    else
      match hay with
      | [] => false
      | _ :: rest => charsContain rest pat

/-- Embeds `tokenize_query` (context.rs lines 122-128): split on
non-alphanumeric boundaries, drop empties, lowercase.  The embedding works on
the ASCII fragment (`Char.isAlphanum` / `Char.toLower`). -/
def tokenize_query (query : String) : List (List Char) :=
  ((query.data.splitOnP (fun c => !c.isAlphanum)).filter (fun t => !t.isEmpty)).map
    (fun t => t.map Char.toLower)

/-- Whether a line's lowercased text contains at least one query term
(the inner loop of context.rs lines 67-74). -/
def containsTerm (terms : List (List Char)) (line : String) : Bool :=
  terms.any (fun t => charsContain (line.data.map Char.toLower) t)

/-- The matching line indices of `extract_context` (context.rs lines 66-75):
the 0-based indices whose lowercased text contains some term, ascending (the
`BTreeSet` enumeration). -/
def match_indices (terms : List (List Char)) (lines : List String) : List Nat :=
  (List.range lines.length).filter (fun i => containsTerm terms (lines.getD i ""))

/-- The include set of `extract_context` (context.rs lines 81-89): the union of
the windows `[idx - W, min(last, idx + W)]` around each match, ascending and
deduplicated.  Rendered as the in-order filter of `0..total` by window
membership (`idx - W` is the saturating subtraction of the source). -/
def include_indices (context_window : Nat) (terms : List (List Char))
    (lines : List String) : List Nat :=
  (List.range lines.length).filter (fun i =>
    (match_indices terms lines).any (fun m =>
      decide (m - context_window ≤ i) && decide (i ≤ m + context_window)))

/-- Result of context extraction (context.rs struct `ContextResult`), with
1-based line numbers. -/
structure ContextResult where
  lines : List (Nat × String)
  truncated_count : Nat
deriving DecidableEq, Repr

/-- The cap derivation of `extract_context` (context.rs lines 93-96):
`Some(0) | None => usize::MAX, Some(n) => n`. -/
def capOf : Option Nat → Nat
  | some 0 => USIZE_MAX
  | none => USIZE_MAX
  | some n => n

/-- Embeds `extract_context` (context.rs lines 32-118) after the file read:
`lines` is the content split into lines (a failed read gives the same result
as no lines).  Early empties mirror the source's returns; the cap of
`Some(0) | None` is `usize::MAX`; the result takes at most `cap` include
indices and records the overflow in `truncated_count`. -/
def extract_context (lines : List String) (query : String)
    (context_window : Nat) (max_lines : Option Nat) : ContextResult :=
  if lines.length = 0 then ⟨[], 0⟩
  else if (tokenize_query query).isEmpty then ⟨[], 0⟩
  else if (match_indices (tokenize_query query) lines).isEmpty then ⟨[], 0⟩
  else
    ⟨((include_indices context_window (tokenize_query query) lines).take
        (capOf max_lines)).map (fun i => (i + 1, lines.getD i "")),
      if capOf max_lines <
          (include_indices context_window (tokenize_query query) lines).length
      then (include_indices context_window (tokenize_query query) lines).length -
        capOf max_lines
      else 0⟩

/-- The emission loop shared by `build_text_with_budget` and
`build_files_only_with_budget` (searcher/mod.rs lines 87-145): `chunks` are
the serialized lengths of the results in rank order, `outLen` the running
buffer length, `emitted` the number of results emitted so far.  Returns
`(emitted, budget_exhausted, results_omitted)`.  On stop the trailer line is
appended to the buffer and `(true, total - emitted)` is signalled. -/
def build_text_budget_go (cap : Option Nat) (total : Nat) :
    List Nat → Nat → Nat → Nat × Bool × Nat
  | [], _, emitted => (emitted, false, 0)
  | c :: rest, outLen, emitted =>
    match cap with
    | some k =>
      if k < outLen + c ∧ outLen ≠ 0 then (emitted, true, total - emitted)
      else build_text_budget_go cap total rest (outLen + c) (emitted + 1)
    | none => build_text_budget_go cap total rest (outLen + c) (emitted + 1)

/-- `build_text_with_budget` / `build_files_only_with_budget` (searcher/mod.rs
lines 87-145): the byte cap is `budget * 4`; the buffer starts empty. -/
def build_text_with_budget (budget : Option Nat) (chunks : List Nat) :
    Nat × Bool × Nat :=
  build_text_budget_go (budget.map (· * 4)) chunks.length chunks 0 0

/-- The emission loop of `build_json_with_budget` (searcher/mod.rs lines
148-188): the running length starts at the 200-character envelope estimate and
the emptiness check is on the emitted result values. -/
def build_json_budget_go (cap : Option Nat) (total : Nat) :
    List Nat → Nat → Nat → Nat × Bool × Nat
  | [], _, emitted => (emitted, false, 0)
  | c :: rest, running, emitted =>
    match cap with
    | some k =>
      if k < running + c ∧ emitted ≠ 0 then (emitted, true, total - emitted)
      else build_json_budget_go cap total rest (running + c) (emitted + 1)
    | none => build_json_budget_go cap total rest (running + c) (emitted + 1)

/-- `build_json_with_budget` (searcher/mod.rs lines 148-209). -/
def build_json_with_budget (budget : Option Nat) (chunks : List Nat) :
    Nat × Bool × Nat :=
  build_json_budget_go (budget.map (· * 4)) chunks.length chunks 200 0

/-- Each path of a changeset lies in at most one of the three lists (§3 of the
spec, "Each path appears in at most one list"). -/
def pathInOneList (cs : ChangeSet) : Prop :=
  (∀ p ∈ cs.added, p ∉ cs.modified ∧ p ∉ cs.deleted) ∧ ∀ p ∈ cs.modified, p ∉ cs.deleted

/-- The spec's claimed persistence discipline for `meta.json` (§5: "atomic
rename (temp-file-then-rename)"), stated over an operation trace: some
temporary file is written and then renamed onto `.ns/meta.json`. -/
def metaWrittenViaRename (ops : List FsOp) : Prop :=
  ∃ tmp, FsOp.write tmp ∈ ops ∧ FsOp.rename tmp ".ns/meta.json" ∈ ops

/-- C1: the query engine is claimed to attach per-clause scores; the struct it
actually returns (query.rs `SearchResult`) has no `score_content`,
`score_symbols` or `matched_fields` field, so the formatter's requirements are
not met by what `execute_search` produces. -/
theorem C1_per_clause_scores_missing :
    "score_content" ∉ searchResultFields ∧
    "score_symbols" ∉ searchResultFields ∧
    "matched_fields" ∉ searchResultFields ∧
    ¬ (∀ f ∈ formatterRequiredFields, f ∈ searchResultFields) := by
  decide

/-- C2 counterexample: neither the full build nor the incremental commit
performs any rename while persisting `.ns/meta.json`; both write the file
directly, so the claimed temp-file-then-rename discipline is absent. -/
theorem C2_no_atomic_rename :
    ¬ metaWrittenViaRename build_index_meta_ops ∧
    ¬ metaWrittenViaRename run_incremental_meta_ops := by
  constructor <;>
    · rintro ⟨tmp, -, hr⟩
      simp [build_index_meta_ops, run_incremental_meta_ops] at hr

/-- C2 (amended): every successful full build and every successful incremental
commit writes `meta.json` exactly once, but by a direct in-place `fs::write`
with no rename step, so the write is not atomic. -/
theorem C2_meta_written_once_no_rename :
    metaWriteCount build_index_meta_ops = 1 ∧
    metaWriteCount run_incremental_meta_ops = 1 ∧
    build_index_meta_ops.any FsOp.isRename = false ∧
    run_incremental_meta_ops.any FsOp.isRename = false := by
  decide

/-- Entries surviving `delete_term idx p` never carry key `p`. -/
theorem delete_term_no_key (idx : List (String × Document)) (p : String) :
    ∀ e ∈ delete_term idx p, e.1 ≠ p := by
  intro e he
  have := List.mem_filter.mp he
  simpa using this.2

/-- `delete_term` only removes entries. -/
theorem delete_term_subset (idx : List (String × Document)) (q : String) :
    ∀ e ∈ delete_term idx q, e ∈ idx := by
  intro e he
  exact (List.mem_filter.mp he).1

/-- The modified-file loop never introduces key `p` when `p`'s document build
fails: each step deletes and only re-adds buildable documents. -/
theorem apply_modified_no_key (langRaw : String → String → List String)
    (fs : String → Option String) (p : String)
    (h2 : build_document langRaw fs p = none) :
    ∀ (ms : List String) (acc : List (String × Document)),
      (∀ e ∈ acc, e.1 ≠ p) →
      ∀ e ∈ ms.foldl (apply_modified_step langRaw fs) acc, e.1 ≠ p := by
  intro ms
  induction ms with
  | nil => intro acc hacc e he; exact hacc e he
  | cons q rest ih =>
    intro acc hacc e he
    refine ih (apply_modified_step langRaw fs acc q) ?_ e he
    intro e' he'
    unfold apply_modified_step at he'
    by_cases hq : q = p
    · subst hq
      rw [h2] at he'
      exact delete_term_no_key acc q e' he'
    · rcases hb : build_document langRaw fs q with - | d
      · rw [hb] at he'
        exact hacc e' (delete_term_subset acc q e' he')
      · rw [hb] at he'
        rcases List.mem_append.mp he' with h | h
        · exact hacc e' (delete_term_subset acc q e' h)
        · rcases List.mem_singleton.mp h with rfl
          simpa using hq

/-- After processing a modified list containing `p`, no entry with key `p`
remains when `p`'s document cannot be built: the delete at `p`'s own iteration
removes the old document and nothing re-adds it. -/
theorem apply_modified_removes (langRaw : String → String → List String)
    (fs : String → Option String) (p : String)
    (h2 : build_document langRaw fs p = none) :
    ∀ (ms : List String) (acc : List (String × Document)), p ∈ ms →
      ∀ e ∈ ms.foldl (apply_modified_step langRaw fs) acc, e.1 ≠ p := by
  intro ms
  induction ms with
  | nil => intro acc hmem; cases hmem
  | cons q rest ih =>
    intro acc hmem e he
    by_cases hq : q = p
    · subst hq
      refine apply_modified_no_key langRaw fs q h2 rest
        (apply_modified_step langRaw fs acc q) ?_ e he
      intro e' he'
      unfold apply_modified_step at he'
      rw [h2] at he'
      exact delete_term_no_key acc q e' he'
    · rcases List.mem_cons.mp hmem with h | h
      · exact absurd h.symm hq
      · exact ih (apply_modified_step langRaw fs acc q) h e he

/-- The added-file loop never introduces key `p` when `p`'s build fails. -/
theorem apply_added_no_key (langRaw : String → String → List String)
    (fs : String → Option String) (p : String)
    (h2 : build_document langRaw fs p = none) :
    ∀ (as_ : List String) (acc : List (String × Document)),
      (∀ e ∈ acc, e.1 ≠ p) →
      ∀ e ∈ as_.foldl (apply_added_step langRaw fs) acc, e.1 ≠ p := by
  intro as_
  induction as_ with
  | nil => intro acc hacc e he; exact hacc e he
  | cons q rest ih =>
    intro acc hacc e he
    refine ih (apply_added_step langRaw fs acc q) ?_ e he
    intro e' he'
    unfold apply_added_step at he'
    by_cases hq : q = p
    · subst hq
      rw [h2] at he'
      exact hacc e' he'
    · rcases hb : build_document langRaw fs q with - | d
      · rw [hb] at he'
        exact hacc e' he'
      · rw [hb] at he'
        rcases List.mem_append.mp he' with h | h
        · exact hacc e' h
        · rcases List.mem_singleton.mp h with rfl
          simpa using hq

/-- C3 counterexample: a single-document index whose only path is listed as
modified, with the file read failing during application.  The commit still
goes through, but the resulting index is empty — the document is not "left in
its previous indexed state" as the claim requires. -/
theorem C3_counterexample_modified_doc_dropped :
    apply_changes (fun _ _ => []) (fun _ => none)
        ⟨[], ["a.rs"], []⟩ [("a.rs", ⟨"old", "", "", "a.rs", some "rust"⟩)] = [] ∧
    [("a.rs", (⟨"old", "", "", "a.rs", some "rust"⟩ : Document))].find?
        (fun e => e.1 == "a.rs") =
      some ("a.rs", ⟨"old", "", "", "a.rs", some "rust"⟩) := by
  constructor <;> rfl

/-- C3 (amended): an I/O error on a single modified file does not abort the
commit (the failed build is swallowed and the loop continues), but the file's
old document has already been deleted by term, so after application the index
holds no document for that path — it ends up absent, not preserved. -/
theorem C3_failed_modified_build_leaves_path_absent
    (langRaw : String → String → List String) (fs : String → Option String)
    (changes : ChangeSet) (idx : List (String × Document)) (p : String)
    (h1 : p ∈ changes.modified)
    (h2 : build_document langRaw fs p = none) :
    (apply_changes langRaw fs changes idx).find? (fun e => e.1 == p) = none := by
  rw [List.find?_eq_none]
  intro e he
  unfold apply_changes at he
  have hne : e.1 ≠ p := by
    refine apply_added_no_key langRaw fs p h2 changes.added _ ?_ e he
    exact apply_modified_removes langRaw fs p h2 changes.modified _ h1
  simpa using hne

/-- C3 witness: the amended theorem applied to the concrete failing input of
the counterexample. -/
theorem C3_failed_modified_build_witness :
    "a.rs" ∈ (ChangeSet.mk [] ["a.rs"] []).modified ∧
    build_document (fun _ _ => []) (fun _ => none) "a.rs" = none ∧
    (apply_changes (fun _ _ => []) (fun _ => none) ⟨[], ["a.rs"], []⟩
        [("a.rs", ⟨"old", "", "", "a.rs", some "rust"⟩)]).find?
      (fun e => e.1 == "a.rs") = none :=
  ⟨by decide, rfl,
    C3_failed_modified_build_leaves_path_absent (fun _ _ => []) (fun _ => none)
      ⟨[], ["a.rs"], []⟩ [("a.rs", ⟨"old", "", "", "a.rs", some "rust"⟩)] "a.rs"
      (by decide) rfl⟩

/-- C10: no extension maps to "elixir" (in particular `.ex`/`.exs` detect as
no language) although the extractor dispatch supports the "elixir" tag, so a
document built for an `.ex`/`.exs` file carries no language tag and empty
symbol fields. -/
theorem C10_elixir_never_detected :
    (∀ e, detect_language e ≠ some "elixir") ∧
    detect_language (some "ex") = none ∧
    detect_language (some "exs") = none ∧
    "elixir" ∈ extract_symbols_langs ∧
    (∀ (langRaw : String → String → List String) (fs : String → Option String)
        (p : String) (d : Document),
      (extOf p = some "ex" ∨ extOf p = some "exs") →
      build_document langRaw fs p = some d →
      d.lang = none ∧ d.symbols = "" ∧ d.symbols_raw = "") := by
  refine ⟨?_, by decide, by decide, by decide, ?_⟩
  · intro e
    cases e with
    | none => simp [detect_language]
    | some s =>
      simp only [detect_language]
      split_ifs <;> simp
  · intro langRaw fs p d hext hbuild
    have hdet : detect_language (extOf p) = none := by
      rcases hext with h | h <;> rw [h] <;> decide
    rcases hfs : fs p with - | content
    · rw [build_document, hfs] at hbuild
      cases hbuild
    · rw [build_document, hfs] at hbuild
      simp only [hdet] at hbuild
      cases hbuild
      exact ⟨rfl, rfl, rfl⟩

/-- C10 witness: a concrete `.ex` file read successfully builds a document
with no language and no symbols. -/
theorem C10_elixir_never_detected_witness :
    extOf "src/a.ex" = some "ex" ∧
    build_document (fun _ _ => ["ignored"]) (fun _ => some "defmodule X do")
        "src/a.ex" = some ⟨"defmodule X do", "", "", "src/a.ex", none⟩ ∧
    ((⟨"defmodule X do", "", "", "src/a.ex", none⟩ : Document).lang = none ∧
     (⟨"defmodule X do", "", "", "src/a.ex", none⟩ : Document).symbols = "" ∧
     (⟨"defmodule X do", "", "", "src/a.ex", none⟩ : Document).symbols_raw = "") :=
  ⟨by decide, by decide,
    C10_elixir_never_detected.2.2.2.2 (fun _ _ => ["ignored"])
      (fun _ => some "defmodule X do") "src/a.ex"
      ⟨"defmodule X do", "", "", "src/a.ex", none⟩
      (Or.inl (by decide)) (by decide)⟩

/-- One untracked-loop step never adds an indexed path to `added`. -/
theorem classify_step_added_preserved (ip : List String) (it : Option Nat)
    (mt : String → Option Nat) (p : String) (hip : p ∈ ip) :
    ∀ (cs : ChangeSet) (q : String), p ∉ cs.added →
      p ∉ (classify_untracked_step ip it mt cs q).added := by
  intro cs q hp
  unfold classify_untracked_step
  split_ifs with h1 h2
  · exact hp
  · rcases it with - | t
    · exact hp
    · rcases mt q with - | m
      · exact hp
      · dsimp only
        split
        · exact hp
        · exact hp
  · intro hmem
    rcases List.mem_append.mp hmem with h | h
    · exact hp h
    · rcases List.mem_singleton.mp h with rfl
      exact h2 (by simpa using hip)

/-- The untracked loop never adds an indexed path to `added`. -/
theorem classify_fold_added_preserved (ip : List String) (it : Option Nat)
    (mt : String → Option Nat) (p : String) (hip : p ∈ ip) :
    ∀ (l : List String) (cs : ChangeSet), p ∉ cs.added →
      p ∉ (classify_untracked l ip it mt cs).added := by
  intro l
  induction l with
  | nil => intro cs hp; exact hp
  | cons q rest ih =>
    intro cs hp
    exact ih (classify_untracked_step ip it mt cs q)
      (classify_step_added_preserved ip it mt p hip cs q hp)

/-- One untracked-loop step never marks `p` modified when its mtime does not
strictly exceed the indexed timestamp. -/
theorem classify_step_not_modified (ip : List String) (it : Option Nat)
    (mt : String → Option Nat) (p : String) (t m : Nat)
    (h3 : it = some t) (h4 : mt p = some m) (hnm : ¬ t < m) :
    ∀ (cs : ChangeSet) (q : String), p ∉ cs.modified →
      p ∉ (classify_untracked_step ip it mt cs q).modified := by
  intro cs q hp
  unfold classify_untracked_step
  split_ifs with h1 h2
  · exact hp
  · subst h3
    rcases hmq : mt q with - | m'
    · exact hp
    · dsimp only
      split
      · intro hmem
        rcases List.mem_append.mp hmem with h | h
        · exact hp h
        · rcases List.mem_singleton.mp h with rfl
          rw [h4] at hmq
          cases hmq
          omega
      · exact hp
  · exact hp

/-- The untracked loop never marks `p` modified when its mtime does not
strictly exceed the indexed timestamp. -/
theorem classify_fold_not_modified (ip : List String) (it : Option Nat)
    (mt : String → Option Nat) (p : String) (t m : Nat)
    (h3 : it = some t) (h4 : mt p = some m) (hnm : ¬ t < m) :
    ∀ (l : List String) (cs : ChangeSet), p ∉ cs.modified →
      p ∉ (classify_untracked l ip it mt cs).modified := by
  intro l
  induction l with
  | nil => intro cs hp; exact hp
  | cons q rest ih =>
    intro cs hp
    exact ih (classify_untracked_step ip it mt cs q)
      (classify_step_not_modified ip it mt p t m h3 h4 hnm cs q hp)

/-- The `modified` list only grows along the untracked loop. -/
theorem classify_fold_modified_mono (ip : List String) (it : Option Nat)
    (mt : String → Option Nat) (p : String) :
    ∀ (l : List String) (cs : ChangeSet), p ∈ cs.modified →
      p ∈ (classify_untracked l ip it mt cs).modified := by
  intro l
  induction l with
  | nil => intro cs hp; exact hp
  | cons q rest ih =>
    intro cs hp
    refine ih (classify_untracked_step ip it mt cs q) ?_
    unfold classify_untracked_step
    split_ifs with h1 h2
    · exact hp
    · rcases it with - | t
      · exact hp
      · rcases mt q with - | m
        · exact hp
        · dsimp only
          split
          · exact List.mem_append_left _ hp
          · exact hp
    · exact hp

/-- An indexed untracked path with strictly newer mtime is marked modified at
its own iteration. -/
theorem classify_fold_modified_of (ip : List String) (it : Option Nat)
    (mt : String → Option Nat) (p : String) (t m : Nat)
    (hip : p ∈ ip) (h3 : it = some t) (h4 : mt p = some m) (hm : t < m)
    (hne : p ≠ "") :
    ∀ (l : List String) (cs : ChangeSet), p ∈ l → p ∉ cs.added →
      p ∈ (classify_untracked l ip it mt cs).modified := by
  intro l
  induction l with
  | nil => intro cs hmem; cases hmem
  | cons q rest ih =>
    intro cs hmem hadd
    by_cases hq : q = p
    · subst hq
      have hstep : classify_untracked_step ip it mt cs q =
          { cs with modified := cs.modified ++ [q] } := by
        unfold classify_untracked_step
        have hc1 : ¬ (q = "" ∨ cs.added.contains q) := by
          rintro (h | h)
          · exact hne h
          · exact hadd (by simpa using h)
        have hc2 : ip.contains q := by simpa using hip
        rw [if_neg hc1, if_pos hc2, h3, h4]
        dsimp only
        rw [if_pos hm]
      rw [classify_untracked, List.foldl_cons, hstep]
      exact classify_fold_modified_mono ip it mt q rest _
        (List.mem_append_right _ (List.mem_singleton.mpr rfl))
    · rcases List.mem_cons.mp hmem with h | h
      · exact absurd h.symm hq
      · exact ih (classify_untracked_step ip it mt cs q) h
          (classify_step_added_preserved ip it mt p hip cs q hadd)

/-- C4: during uncommitted-change detection an untracked path already present
in the index is classified as modified exactly when its mtime strictly exceeds
the recorded `indexed_at`, and it is never placed in `added`. -/
theorem C4_untracked_modified_iff (untracked ip : List String) (it : Option Nat)
    (mt : String → Option Nat) (cs0 : ChangeSet) (p : String) (t m : Nat)
    (h1 : p ∈ untracked) (h2 : p ∈ ip) (h3 : it = some t) (h4 : mt p = some m)
    (h5 : p ∉ cs0.added) (h6 : p ∉ cs0.modified) (h7 : p ≠ "") :
    (p ∈ (classify_untracked untracked ip it mt cs0).modified ↔ t < m) ∧
    p ∉ (classify_untracked untracked ip it mt cs0).added := by
  refine ⟨⟨?_, ?_⟩, ?_⟩
  · intro hmod
    by_contra hnm
    exact classify_fold_not_modified ip it mt p t m h3 h4 hnm untracked cs0 h6 hmod
  · intro hm
    exact classify_fold_modified_of ip it mt p t m h2 h3 h4 hm h7 untracked cs0 h1 h5
  · exact classify_fold_added_preserved ip it mt p h2 untracked cs0 h5

/-- C4 witness: one untracked indexed file, indexed at 10, modified at 20. -/
theorem C4_untracked_modified_iff_witness :
    ("u.rs" ∈ (classify_untracked ["u.rs"] ["u.rs"] (some 10) (fun _ => some 20)
        ⟨[], [], []⟩).modified ↔ 10 < 20) ∧
    "u.rs" ∉ (classify_untracked ["u.rs"] ["u.rs"] (some 10) (fun _ => some 20)
        ⟨[], [], []⟩).added :=
  C4_untracked_modified_iff ["u.rs"] ["u.rs"] (some 10) (fun _ => some 20)
    ⟨[], [], []⟩ "u.rs" 10 20 (by decide) (by decide) rfl rfl
    (by decide) (by decide) (by decide)

/-- Membership in the merged `added` list. -/
theorem mem_merge_added (base other : ChangeSet) (p : String) :
    p ∈ (merge_changesets base other).added ↔
      p ∈ base.added ∨ p ∈ other.added ∧
        ¬ (p ∈ base.added ∨ p ∈ base.modified ∨ p ∈ base.deleted) := by
  simp [merge_changesets, List.mem_filter, or_assoc]

/-- Membership in the merged `modified` list. -/
theorem mem_merge_modified (base other : ChangeSet) (p : String) :
    p ∈ (merge_changesets base other).modified ↔
      p ∈ base.modified ∨ p ∈ other.modified ∧
        ¬ (p ∈ base.added ∨ p ∈ base.modified ∨ p ∈ base.deleted) := by
  simp [merge_changesets, List.mem_filter, or_assoc]

/-- Membership in the merged `deleted` list. -/
theorem mem_merge_deleted (base other : ChangeSet) (p : String) :
    p ∈ (merge_changesets base other).deleted ↔
      p ∈ base.deleted ∨ p ∈ other.deleted ∧
        ¬ (p ∈ base.added ∨ p ∈ base.modified ∨ p ∈ base.deleted) := by
  simp [merge_changesets, List.mem_filter, or_assoc]

/-- C5: merging the uncommitted changeset into the committed one preserves the
"each path in at most one list" invariant, the first-seen (committed) list
wins for any duplicated path, and the mtime-fallback changeset satisfies the
invariant outright. -/
theorem C5_merge_disjoint_first_seen_wins (base other : ChangeSet)
    (cur idx : List String) (mn : String → Bool)
    (hb : pathInOneList base) (ho : pathInOneList other) :
    pathInOneList (merge_changesets base other) ∧
    (∀ p ∈ base.added, p ∈ (merge_changesets base other).added ∧
      p ∉ (merge_changesets base other).modified ∧
      p ∉ (merge_changesets base other).deleted) ∧
    (∀ p ∈ base.modified, p ∉ (merge_changesets base other).added ∧
      p ∈ (merge_changesets base other).modified ∧
      p ∉ (merge_changesets base other).deleted) ∧
    (∀ p ∈ base.deleted, p ∉ (merge_changesets base other).added ∧
      p ∉ (merge_changesets base other).modified ∧
      p ∈ (merge_changesets base other).deleted) ∧
    pathInOneList (detect_changes_mtime cur idx mn) := by
  obtain ⟨hb1, hb2⟩ := hb
  obtain ⟨ho1, ho2⟩ := ho
  refine ⟨⟨?_, ?_⟩, ?_, ?_, ?_, ?_, ?_⟩
  · intro p hp
    have b1 := hb1 p
    have b2 := hb2 p
    have o1 := ho1 p
    rw [mem_merge_added] at hp
    rw [mem_merge_modified, mem_merge_deleted]
    tauto
  · intro p hp
    have b2 := hb2 p
    have o2 := ho2 p
    rw [mem_merge_modified] at hp
    rw [mem_merge_deleted]
    tauto
  · intro p hp
    have b1 := hb1 p
    have b2 := hb2 p
    rw [mem_merge_added, mem_merge_modified, mem_merge_deleted]
    tauto
  · intro p hp
    have b1 := hb1 p
    have b2 := hb2 p
    rw [mem_merge_added, mem_merge_modified, mem_merge_deleted]
    tauto
  · intro p hp
    have b1 := hb1 p
    have b2 := hb2 p
    rw [mem_merge_added, mem_merge_modified, mem_merge_deleted]
    tauto
  · intro p hp
    have hpa : p ∈ cur ∧ p ∉ idx := by
      simpa [detect_changes_mtime] using List.mem_filter.mp hp
    constructor
    · intro hc
      have h2 := (List.mem_filter.mp hc).2
      rw [Bool.and_eq_true] at h2
      exact hpa.2 (by simpa using h2.1)
    · intro hc
      exact hpa.2 (List.mem_filter.mp hc).1
  · intro p hp
    have hpm : p ∈ cur := (List.mem_filter.mp hp).1
    intro hc
    have hnc : p ∉ cur := by
      simpa using (List.mem_filter.mp hc).2
    exact hnc hpm

/-- C5 witness: a committed changeset sharing paths with the uncommitted one;
the committed (first-seen) classification wins and the merge stays disjoint. -/
theorem C5_merge_disjoint_witness :
    "b" ∈ (merge_changesets ⟨["b"], ["m"], ["d"]⟩ ⟨["x"], ["b"], ["m"]⟩).added ∧
    "b" ∉ (merge_changesets ⟨["b"], ["m"], ["d"]⟩ ⟨["x"], ["b"], ["m"]⟩).modified ∧
    "b" ∉ (merge_changesets ⟨["b"], ["m"], ["d"]⟩ ⟨["x"], ["b"], ["m"]⟩).deleted :=
  (C5_merge_disjoint_first_seen_wins ⟨["b"], ["m"], ["d"]⟩ ⟨["x"], ["b"], ["m"]⟩
      [] [] (fun _ => false) (by constructor <;> decide) (by constructor <;> decide)).2.1
    "b" (by decide)

/-- The deduplication pass is a sublist of its input: names stay in source
order. -/
theorem dedupFirstAux_sublist :
    ∀ (l seen : List String), List.Sublist (dedupFirstAux seen l) l := by
  intro l
  induction l with
  | nil => intro seen; simp [dedupFirstAux]
  | cons s rest ih =>
    intro seen
    rw [dedupFirstAux]
    split_ifs with h
    · exact (ih seen).trans (List.sublist_cons_self s rest)
    · exact (ih (s :: seen)).cons₂ s

/-- Membership after deduplication: kept iff present and not already seen. -/
theorem dedupFirstAux_mem :
    ∀ (l seen : List String) (a : String),
      a ∈ dedupFirstAux seen l ↔ a ∈ l ∧ a ∉ seen := by
  intro l
  induction l with
  | nil => intro seen a; simp [dedupFirstAux]
  | cons s rest ih =>
    intro seen a
    rw [dedupFirstAux]
    split_ifs with h
    · have hs : s ∈ seen := by simpa using h
      rw [ih]
      constructor
      · rintro ⟨ha, hns⟩
        exact ⟨List.mem_cons_of_mem s ha, hns⟩
      · rintro ⟨ha, hns⟩
        rcases List.mem_cons.mp ha with rfl | ha
        · exact absurd hs hns
        · exact ⟨ha, hns⟩
    · have hs : s ∉ seen := by simpa using h
      rw [List.mem_cons, ih]
      constructor
      · rintro (rfl | ⟨ha, hns⟩)
        · exact ⟨List.mem_cons_self a rest, hs⟩
        · refine ⟨List.mem_cons_of_mem s ha, fun hm => hns (List.mem_cons_of_mem s hm)⟩
      · rintro ⟨ha, hns⟩
        by_cases has : a = s
        · exact Or.inl has
        · rcases List.mem_cons.mp ha with rfl | ha
          · exact absurd rfl has
          · exact Or.inr ⟨ha, fun hm => by
              rcases List.mem_cons.mp hm with h' | h'
              · exact has h'
              · exact hns h'⟩

/-- The deduplication pass produces no duplicates. -/
theorem dedupFirstAux_nodup :
    ∀ (l seen : List String), (dedupFirstAux seen l).Nodup := by
  intro l
  induction l with
  | nil => intro seen; simp [dedupFirstAux]
  | cons s rest ih =>
    intro seen
    rw [dedupFirstAux]
    split_ifs with h
    · exact ih seen
    · refine List.Nodup.cons ?_ (ih (s :: seen))
      intro hmem
      exact ((dedupFirstAux_mem rest (s :: seen) s).mp hmem).2 (List.mem_cons_self s seen)

/-- The `seen` accumulator matters only through membership. -/
theorem dedupFirstAux_congr :
    ∀ (l seen seen' : List String), (∀ a, a ∈ seen ↔ a ∈ seen') →
      dedupFirstAux seen l = dedupFirstAux seen' l := by
  intro l
  induction l with
  | nil => intro seen seen' _; rfl
  | cons s rest ih =>
    intro seen seen' hiff
    rw [dedupFirstAux, dedupFirstAux]
    by_cases h : s ∈ seen
    · rw [if_pos (by simpa using h), if_pos (by simpa using (hiff s).mp h)]
      exact ih seen seen' hiff
    · rw [if_neg (by simpa using h),
        if_neg (by simpa using fun h' => h ((hiff s).mpr h'))]
      refine congrArg (s :: ·) (ih (s :: seen) (s :: seen') ?_)
      intro a
      rw [List.mem_cons, List.mem_cons, hiff a]

/-- Seeding the accumulator with `x` equals filtering `x` out of the input:
the first occurrence of a name suppresses all later ones. -/
theorem dedupFirstAux_filter :
    ∀ (l : List String) (x : String) (seen : List String),
      dedupFirstAux (x :: seen) l =
        dedupFirstAux seen (l.filter (fun s => s ≠ x)) := by
  intro l
  induction l with
  | nil => intro x seen; rfl
  | cons s rest ih =>
    intro x seen
    by_cases hsx : s = x
    · subst hsx
      rw [dedupFirstAux, if_pos (by simp), List.filter_cons_of_neg (by simp)]
      exact ih s seen
    · rw [List.filter_cons_of_pos (by simpa using hsx), dedupFirstAux, dedupFirstAux]
      by_cases hs : s ∈ seen
      · rw [if_pos (by simp [hs]), if_pos (by simpa using hs)]
        exact ih x seen
      · have hnx : s ∉ x :: seen := by
          intro hm
          rcases List.mem_cons.mp hm with h | h
          · exact hsx h
          · exact hs h
        rw [if_neg (by simpa using hnx), if_neg (by simpa using hs)]
        have h1 : dedupFirstAux (s :: x :: seen) rest =
            dedupFirstAux (x :: s :: seen) rest :=
          dedupFirstAux_congr rest _ _ (fun a => by
            simp only [List.mem_cons]
            tauto)
        have h2 : dedupFirstAux (x :: s :: seen) rest =
            dedupFirstAux (s :: seen) (rest.filter (fun s' => s' ≠ x)) :=
          ih x (s :: seen)
        exact congrArg (s :: ·) (h1.trans h2)

/-- Unfolding the deduplication at a cons: the head is kept and suppresses all
its later occurrences (first occurrence wins). -/
theorem dedupFirst_cons (x : String) (xs : List String) :
    dedupFirst (x :: xs) = x :: dedupFirst (xs.filter (fun s => s ≠ x)) := by
  rw [dedupFirst, dedupFirstAux, if_neg (by simp)]
  exact congrArg (x :: ·) (dedupFirstAux_filter xs x [])

/-- C9: symbol extraction dispatches on the language tag and deduplicates the
walker's raw output in source order with first occurrence winning; an
unsupported tag (and a parse failure, whose raw output is already empty)
yields the empty list, and the function is total (never raises). -/
theorem C9_extract_symbols_dedup (langRaw : String → String → List String)
    (lang source : String) :
    (extract_symbols langRaw lang source).Nodup ∧
    List.Sublist (extract_symbols langRaw lang source) (langRaw lang source) ∧
    (∀ a, a ∈ extract_symbols langRaw lang source ↔
      lang ∈ extract_symbols_langs ∧ a ∈ langRaw lang source) ∧
    (lang ∉ extract_symbols_langs → extract_symbols langRaw lang source = []) ∧
    (∀ (x : String) (xs : List String),
      dedupFirst (x :: xs) = x :: dedupFirst (xs.filter (fun s => s ≠ x))) := by
  unfold extract_symbols
  by_cases h : lang ∈ extract_symbols_langs
  · rw [if_pos (by simpa using h)]
    refine ⟨dedupFirstAux_nodup _ _, dedupFirstAux_sublist _ _, ?_, ?_, dedupFirst_cons⟩
    · intro a
      rw [dedupFirst, dedupFirstAux_mem]
      simp [h]
    · intro h'
      exact absurd h h'
  · rw [if_neg (by simpa using h)]
    refine ⟨List.nodup_nil, List.nil_sublist _, ?_, fun _ => rfl, dedupFirst_cons⟩
    intro a
    simp [h]

/-- C9 witness: an unsupported tag returns the empty list even when the
abstract walker would produce names. -/
theorem C9_extract_symbols_dedup_witness :
    "ruby" ∉ extract_symbols_langs ∧
    extract_symbols (fun _ _ => ["b", "a", "b"]) "ruby" "class Foo; end" = [] :=
  ⟨by decide, (C9_extract_symbols_dedup (fun _ _ => ["b", "a", "b"]) "ruby"
      "class Foo; end").2.2.2.1 (by decide)⟩

/-- Without a budget the text/files loop emits every chunk. -/
theorem build_text_budget_go_none (total : Nat) :
    ∀ (chunks : List Nat) (outLen emitted : Nat),
      build_text_budget_go none total chunks outLen emitted =
        (emitted + chunks.length, false, 0) := by
  intro chunks
  induction chunks with
  | nil => intro outLen emitted; simp [build_text_budget_go]
  | cons c rest ih =>
    intro outLen emitted
    rw [build_text_budget_go, ih, List.length_cons]
    have harith : emitted + 1 + rest.length = emitted + (rest.length + 1) := by omega
    rw [harith]

/-- Without a budget the JSON loop emits every chunk. -/
theorem build_json_budget_go_none (total : Nat) :
    ∀ (chunks : List Nat) (running emitted : Nat),
      build_json_budget_go none total chunks running emitted =
        (emitted + chunks.length, false, 0) := by
  intro chunks
  induction chunks with
  | nil => intro running emitted; simp [build_json_budget_go]
  | cons c rest ih =>
    intro running emitted
    rw [build_json_budget_go, ih, List.length_cons]
    have harith : emitted + 1 + rest.length = emitted + (rest.length + 1) := by omega
    rw [harith]

/-- The text/files emission loop under a byte cap: an early stop emitted at
least one result (the buffer was non-empty), reports the exact omission count,
and happened exactly because appending the next chunk would overflow the cap;
a clean finish emitted everything and omitted nothing. -/
theorem build_text_budget_go_some (k : Nat) :
    ∀ (rest consumed L : List Nat), L = consumed ++ rest →
      ∀ (e : Nat) (x : Bool) (om : Nat),
        build_text_budget_go (some k) L.length rest consumed.sum consumed.length =
          (e, x, om) →
        (x = true → 1 ≤ e ∧ om = L.length - e ∧
          ∃ c, L[e]? = some c ∧ k < (L.take e).sum + c) ∧
        (x = false → om = 0 ∧ e = L.length) := by
  intro rest
  induction rest with
  | nil =>
    intro consumed L hL e x om h
    rw [build_text_budget_go] at h
    injection h with h1 h2
    injection h2 with h2 h3
    subst h1; subst h2; subst h3
    refine ⟨?_, ?_⟩
    · intro hx
      cases hx
    · intro _
      refine ⟨rfl, ?_⟩
      simp [hL]
  | cons c rest' ih =>
    intro consumed L hL e x om h
    rw [build_text_budget_go] at h
    split_ifs at h with hguard
    · injection h with h1 h2
      injection h2 with h2 h3
      subst h1; subst h2; subst h3
      refine ⟨?_, ?_⟩
      · intro _
        refine ⟨?_, rfl, ?_⟩
        · have hne : consumed ≠ [] := by
            intro hnil
            exact hguard.2 (by simp [hnil])
          exact Nat.one_le_iff_ne_zero.mpr
            (fun h0 => hne (List.length_eq_zero.mp h0))
        · subst hL
          refine ⟨c, ?_, ?_⟩
          · rw [List.getElem?_append_right (le_refl _)]
            simp
          · rw [List.take_left]
            exact hguard.1
      · intro hx
        cases hx
    · have h' : build_text_budget_go (some k) L.length rest'
          (consumed ++ [c]).sum (consumed ++ [c]).length = (e, x, om) := by
        simpa using h
      exact ih (consumed ++ [c]) L (by simp [hL]) e x om h'

/-- The JSON emission loop under a byte cap, running length seeded with the
200-character envelope estimate. -/
theorem build_json_budget_go_some (k : Nat) :
    ∀ (rest consumed L : List Nat), L = consumed ++ rest →
      ∀ (e : Nat) (x : Bool) (om : Nat),
        build_json_budget_go (some k) L.length rest (200 + consumed.sum)
          consumed.length = (e, x, om) →
        (x = true → 1 ≤ e ∧ om = L.length - e ∧
          ∃ c, L[e]? = some c ∧ k < 200 + (L.take e).sum + c) ∧
        (x = false → om = 0 ∧ e = L.length) := by
  intro rest
  induction rest with
  | nil =>
    intro consumed L hL e x om h
    rw [build_json_budget_go] at h
    injection h with h1 h2
    injection h2 with h2 h3
    subst h1; subst h2; subst h3
    refine ⟨?_, ?_⟩
    · intro hx
      cases hx
    · intro _
      refine ⟨rfl, ?_⟩
      simp [hL]
  | cons c rest' ih =>
    intro consumed L hL e x om h
    rw [build_json_budget_go] at h
    split_ifs at h with hguard
    · injection h with h1 h2
      injection h2 with h2 h3
      subst h1; subst h2; subst h3
      refine ⟨?_, ?_⟩
      · intro _
        refine ⟨Nat.one_le_iff_ne_zero.mpr hguard.2, rfl, ?_⟩
        subst hL
        refine ⟨c, ?_, ?_⟩
        · rw [List.getElem?_append_right (le_refl _)]
          simp
        · rw [List.take_left]
          have := hguard.1
          omega
      · intro hx
        cases hx
    · have h' : build_json_budget_go (some k) L.length rest'
          (200 + (consumed ++ [c]).sum) (consumed ++ [c]).length = (e, x, om) := by
        have harith : 200 + consumed.sum + c = 200 + (consumed.sum + c) := by omega
        simpa [harith] using h
      exact ih (consumed ++ [c]) L (by simp [hL]) e x om h'

/-- C8: in every output mode the shaper stops only when appending the next
serialized result would push the running length past `4·T` with at least one
result already emitted; on `budget_exhausted = true` at least one result was
emitted and `results_omitted = total − emitted`; on `false` nothing was
omitted and every result was emitted. -/
theorem C8_budget_shaper (budget : Option Nat) (chunks : List Nat) :
    ((build_text_with_budget budget chunks).2.1 = true →
      1 ≤ (build_text_with_budget budget chunks).1 ∧
      (build_text_with_budget budget chunks).2.2 =
        chunks.length - (build_text_with_budget budget chunks).1 ∧
      ∃ b c, budget = some b ∧
        chunks[(build_text_with_budget budget chunks).1]? = some c ∧
        b * 4 < (chunks.take (build_text_with_budget budget chunks).1).sum + c) ∧
    ((build_text_with_budget budget chunks).2.1 = false →
      (build_text_with_budget budget chunks).2.2 = 0 ∧
      (build_text_with_budget budget chunks).1 = chunks.length) ∧
    ((build_json_with_budget budget chunks).2.1 = true →
      1 ≤ (build_json_with_budget budget chunks).1 ∧
      (build_json_with_budget budget chunks).2.2 =
        chunks.length - (build_json_with_budget budget chunks).1 ∧
      ∃ b c, budget = some b ∧
        chunks[(build_json_with_budget budget chunks).1]? = some c ∧
        b * 4 < 200 + (chunks.take (build_json_with_budget budget chunks).1).sum + c) ∧
    ((build_json_with_budget budget chunks).2.1 = false →
      (build_json_with_budget budget chunks).2.2 = 0 ∧
      (build_json_with_budget budget chunks).1 = chunks.length) := by
  rcases budget with - | b
  · rw [build_text_with_budget, build_json_with_budget]
    simp only [Option.map_none']
    rw [build_text_budget_go_none, build_json_budget_go_none]
    refine ⟨?_, ?_, ?_, ?_⟩
    · intro hx
      cases hx
    · intro _
      refine ⟨rfl, ?_⟩
      simp
    · intro hx
      cases hx
    · intro _
      refine ⟨rfl, ?_⟩
      simp
  · have ht := build_text_budget_go_some (b * 4) chunks [] chunks (by simp)
      (build_text_with_budget (some b) chunks).1
      (build_text_with_budget (some b) chunks).2.1
      (build_text_with_budget (some b) chunks).2.2 rfl
    have hj := build_json_budget_go_some (b * 4) chunks [] chunks (by simp)
      (build_json_with_budget (some b) chunks).1
      (build_json_with_budget (some b) chunks).2.1
      (build_json_with_budget (some b) chunks).2.2 rfl
    refine ⟨fun hx => ?_, ht.2, fun hx => ?_, hj.2⟩
    · obtain ⟨h1, h2, c, hc, hlt⟩ := ht.1 hx
      exact ⟨h1, h2, b, c, rfl, hc, hlt⟩
    · obtain ⟨h1, h2, c, hc, hlt⟩ := hj.1 hx
      exact ⟨h1, h2, b, c, rfl, hc, hlt⟩

/-- C8 witness: chunks of length 5 under a 2-token (8-byte) budget stop after
one emitted result in text mode; under a 52-token budget the JSON envelope
estimate makes the second result overflow. -/
theorem C8_budget_shaper_witness :
    (1 ≤ (build_text_with_budget (some 2) [5, 5, 5]).1 ∧
      (build_text_with_budget (some 2) [5, 5, 5]).2.2 =
        ([5, 5, 5] : List Nat).length - (build_text_with_budget (some 2) [5, 5, 5]).1 ∧
      ∃ b c, (some 2 : Option Nat) = some b ∧
        ([5, 5, 5] : List Nat)[(build_text_with_budget (some 2) [5, 5, 5]).1]? = some c ∧
        b * 4 < (([5, 5, 5] : List Nat).take
          (build_text_with_budget (some 2) [5, 5, 5]).1).sum + c) ∧
    (1 ≤ (build_json_with_budget (some 52) [5, 5, 5]).1 ∧
      (build_json_with_budget (some 52) [5, 5, 5]).2.2 =
        ([5, 5, 5] : List Nat).length - (build_json_with_budget (some 52) [5, 5, 5]).1 ∧
      ∃ b c, (some 52 : Option Nat) = some b ∧
        ([5, 5, 5] : List Nat)[(build_json_with_budget (some 52) [5, 5, 5]).1]? = some c ∧
        b * 4 < 200 + (([5, 5, 5] : List Nat).take
          (build_json_with_budget (some 52) [5, 5, 5]).1).sum + c) :=
  ⟨(C8_budget_shaper (some 2) [5, 5, 5]).1 (by decide),
   (C8_budget_shaper (some 52) [5, 5, 5]).2.2.1 (by decide)⟩

/-- With no query terms nothing matches. -/
theorem match_indices_nil (lines : List String) :
    match_indices [] lines = [] := by
  simp [match_indices, containsTerm]

/-- With no matches the include set is empty. -/
theorem include_indices_of_no_match (w : Nat) (terms : List (List Char))
    (lines : List String) (h : match_indices terms lines = []) :
    include_indices w terms lines = [] := by
  simp [include_indices, h]

/-- Characterization of `extract_context`: the emitted lines are always the
capped include set with 1-based numbering, and `truncated_count` is the
overflow beyond the cap (in the early-return branches the include set is
itself empty, so the equations hold there as well). -/
theorem extract_context_eq (lines : List String) (query : String)
    (w : Nat) (ml : Option Nat) :
    (extract_context lines query w ml).lines =
      ((include_indices w (tokenize_query query) lines).take (capOf ml)).map
        (fun i => (i + 1, lines.getD i "")) ∧
    (extract_context lines query w ml).truncated_count =
      (if capOf ml < (include_indices w (tokenize_query query) lines).length
       then (include_indices w (tokenize_query query) lines).length - capOf ml
       else 0) := by
  by_cases h0 : lines.length = 0
  · have hnil : lines = [] := List.length_eq_zero.mp h0
    subst hnil
    have hinc : include_indices w (tokenize_query query) ([] : List String) = [] := by
      simp [include_indices]
    unfold extract_context
    rw [if_pos h0, hinc]
    simp
  · by_cases h1 : (tokenize_query query).isEmpty
    · have hterms : tokenize_query query = [] := by simpa using h1
      have hinc : include_indices w (tokenize_query query) lines = [] :=
        include_indices_of_no_match w _ lines
          (by rw [hterms]; exact match_indices_nil lines)
      unfold extract_context
      rw [if_neg h0, if_pos h1, hinc]
      simp
    · by_cases h2 : (match_indices (tokenize_query query) lines).isEmpty
      · have hms : match_indices (tokenize_query query) lines = [] := by
          simpa using h2
        have hinc : include_indices w (tokenize_query query) lines = [] :=
          include_indices_of_no_match w _ lines hms
        unfold extract_context
        rw [if_neg h0, if_neg h1, if_pos h2, hinc]
        simp
      · unfold extract_context
        rw [if_neg h0, if_neg h1, if_neg h2]
        exact ⟨rfl, rfl⟩

/-- The include set is no larger than the file. -/
theorem include_indices_length_le (w : Nat) (terms : List (List Char))
    (lines : List String) :
    (include_indices w terms lines).length ≤ lines.length := by
  refine (List.length_filter_le _ _).trans ?_
  simp

/-- C6: a cap of 0 or an absent cap is unlimited; a non-zero cap `L` smaller
than the include set emits exactly the first `L` include indices with
`truncated_count` the exact overflow, and otherwise everything is emitted with
`truncated_count = 0`. -/
theorem C6_context_cap (lines : List String) (query : String) (w : Nat)
    (ml : Option Nat) (hlen : lines.length ≤ USIZE_MAX) :
    ((ml = none ∨ ml = some 0) →
      (extract_context lines query w ml).truncated_count = 0 ∧
      (extract_context lines query w ml).lines.length =
        (include_indices w (tokenize_query query) lines).length) ∧
    (∀ L, ml = some L → L ≠ 0 →
      (L < (include_indices w (tokenize_query query) lines).length →
        (extract_context lines query w ml).lines =
          ((include_indices w (tokenize_query query) lines).take L).map
            (fun i => (i + 1, lines.getD i "")) ∧
        (extract_context lines query w ml).truncated_count =
          (include_indices w (tokenize_query query) lines).length - L) ∧
      ((include_indices w (tokenize_query query) lines).length ≤ L →
        (extract_context lines query w ml).lines.length =
          (include_indices w (tokenize_query query) lines).length ∧
        (extract_context lines query w ml).truncated_count = 0)) := by
  obtain ⟨hL, hT⟩ := extract_context_eq lines query w ml
  have hle : (include_indices w (tokenize_query query) lines).length ≤ lines.length :=
    include_indices_length_le w _ lines
  constructor
  · intro hml
    have hcap : capOf ml = USIZE_MAX := by
      rcases hml with rfl | rfl <;> rfl
    constructor
    · rw [hT, hcap, if_neg (by omega)]
    · rw [hL, hcap]
      simp only [List.length_map, List.length_take]
      omega
  · intro L hml hL0
    subst hml
    have hcap : capOf (some L) = L := by
      cases L with
      | zero => exact absurd rfl hL0
      | succ n => rfl
    constructor
    · intro hlt
      constructor
      · rw [hL, hcap]
      · rw [hT, hcap, if_pos hlt]
    · intro hge
      constructor
      · rw [hL, hcap]
        simp only [List.length_map, List.length_take]
        omega
      · rw [hT, hcap, if_neg (by omega)]

/-- C6 witness: five lines, two matching, window 1 (include set of four
indices), cap 2: the first two indices are emitted and two are truncated. -/
theorem C6_context_cap_witness :
    (2 < (include_indices 1 (tokenize_query "EventStore")
        ["a", "b", "eventstore", "d", "eventstore x"]).length) ∧
    (extract_context ["a", "b", "eventstore", "d", "eventstore x"]
        "EventStore" 1 (some 2)).lines =
      ((include_indices 1 (tokenize_query "EventStore")
          ["a", "b", "eventstore", "d", "eventstore x"]).take 2).map
        (fun i => (i + 1, (["a", "b", "eventstore", "d", "eventstore x"] :
            List String).getD i "")) ∧
    (extract_context ["a", "b", "eventstore", "d", "eventstore x"]
        "EventStore" 1 (some 2)).truncated_count =
      (include_indices 1 (tokenize_query "EventStore")
        ["a", "b", "eventstore", "d", "eventstore x"]).length - 2 :=
  ⟨by decide,
    ((C6_context_cap ["a", "b", "eventstore", "d", "eventstore x"] "EventStore" 1
        (some 2) (by decide)).2 2 rfl (by decide)).1 (by decide)⟩

/-- C7: every emitted line index lies in some match's window, line numbers are
strictly increasing, and with window 0 every emitted line's lowercased text
contains a query term. -/
theorem C7_context_window (lines : List String) (query : String) (w : Nat)
    (ml : Option Nat) :
    (∀ nt ∈ (extract_context lines query w ml).lines,
      ∃ m ∈ match_indices (tokenize_query query) lines,
        m - w ≤ nt.1 - 1 ∧ nt.1 - 1 ≤ m + w) ∧
    List.Pairwise (fun a b : Nat × String => a.1 < b.1)
      (extract_context lines query w ml).lines ∧
    (w = 0 → ∀ nt ∈ (extract_context lines query w ml).lines,
      containsTerm (tokenize_query query) nt.2 = true) := by
  obtain ⟨hL, -⟩ := extract_context_eq lines query w ml
  refine ⟨?_, ?_, ?_⟩
  · intro nt hnt
    rw [hL] at hnt
    obtain ⟨i, hi, rfl⟩ := List.mem_map.mp hnt
    have hi' : i ∈ include_indices w (tokenize_query query) lines :=
      (List.take_sublist _ _).subset hi
    have hp := (List.mem_filter.mp hi').2
    obtain ⟨m, hm, hcond⟩ := List.any_eq_true.mp hp
    have hb : m - w ≤ i ∧ i ≤ m + w := by simpa using hcond
    refine ⟨m, hm, ?_, ?_⟩
    · simpa using hb.1
    · simpa using hb.2
  · rw [hL, List.pairwise_map]
    refine List.Pairwise.imp (fun h => Nat.succ_lt_succ h) ?_
    exact ((List.pairwise_lt_range _).sublist
      (List.filter_sublist _)).sublist (List.take_sublist _ _)
  · intro hw nt hnt
    subst hw
    rw [hL] at hnt
    obtain ⟨i, hi, rfl⟩ := List.mem_map.mp hnt
    have hi' : i ∈ include_indices 0 (tokenize_query query) lines :=
      (List.take_sublist _ _).subset hi
    have hp := (List.mem_filter.mp hi').2
    obtain ⟨m, hm, hcond⟩ := List.any_eq_true.mp hp
    have hb : m ≤ i ∧ i ≤ m := by simpa using hcond
    have h1 : m ≤ i := hb.1
    have h2 : i ≤ m := hb.2
    have him : i = m := le_antisymm h2 h1
    subst him
    have := (List.mem_filter.mp hm).2
    simpa using this

/-- C7 witness: with window 0 the single emitted line itself contains the
query term. -/
theorem C7_context_window_witness :
    containsTerm (tokenize_query "EventStore")
      (((3 : Nat), "eventstore") : Nat × String).2 = true :=
  (C7_context_window ["a", "b", "eventstore"] "EventStore" 0 none).2.2 rfl
    (3, "eventstore") (by decide)

end Nanosearch
